import Mathlib

/-!
Verification of the Wordle guess evaluator and word-library loader
(`src/lib.rs`): the `LetterState`/`GuessResult`/`Library` data model, the
per-letter feedback algorithm `evaluate_letter` / `evaluate_guess`, and the
loader `load_words_from_file` / `Library::load_from_file`.

Rust panics are modelled as `none`; Rust `str::len` (UTF-8 byte count) is
modelled by `rustLen`, and `str::lines` by `rustLines`.
-/

set_option maxHeartbeats 1000000

/-- State of a letter in a guess (the Rust enum `LetterState`). -/
inductive LetterState where
  | Correct
  | Present
  | Absent
deriving DecidableEq

/-- Result of a guess (the Rust struct `GuessResult`). -/
structure GuessResult where
  guess : String
  states : List LetterState
deriving DecidableEq

/-- A library of valid words (the Rust struct `Library`). -/
structure Library where
  guesses : List String
  answers : List String
  word_length : Nat
deriving DecidableEq

/-- Number of bytes of the UTF-8 encoding of a character, as Rust counts them. -/
def charUtf8Size (c : Char) : Nat :=
  if c.val < 0x80 then 1
  else if c.val < 0x800 then 2
  else if c.val < 0x10000 then 3
  else 4

/-- Rust `str::len`: the UTF-8 byte length of a string. -/
def rustLen (s : String) : Nat :=
  (s.toList.map charUtf8Size).sum

/-- Split a character list at every newline character, keeping empty pieces. -/
def splitNl : List Char → List (List Char)
  | [] => [[]]
  | c :: rest =>
      if c = '\n' then [] :: splitNl rest
      else
        match splitNl rest with
        | p :: ps => (c :: p) :: ps
        | [] => [[c]]

/-- Strip one trailing carriage return, as Rust `str::lines` does on each
newline-terminated line. -/
def stripCR (l : List Char) : List Char :=
  if l.getLast? = some '\r' then l.dropLast else l

/-- Turn the pieces produced by `splitNl` into the lines Rust `str::lines`
yields: every piece except the final one was newline-terminated and gets a
trailing carriage return stripped; the final piece is kept untouched unless it
is empty (the contents ended with a newline, or were empty). -/
def finishLines : List (List Char) → List String
  | [] => []
  | [p] => if p = [] then [] else [String.mk p]
  | p :: rest => String.mk (stripCR p) :: finishLines rest

/-- Rust `str::lines` applied to the full contents of a file. -/
def rustLines (s : String) : List String :=
  finishLines (splitNl s.toList)

/-- Rust `load_words_from_file`, with the contents of the file already read
(the `fs::read_to_string` step is I/O outside the model): collects the lines,
takes the byte length of the first word (`0` when there is none), and panics
(`none`) unless every word has exactly that byte length. -/
def load_words_from_file (contents : String) : Option (List String × Nat) :=
  let words := rustLines contents
  let word_length := (words.head?.map rustLen).getD 0
  if words.all (fun w => rustLen w == word_length) then
    some (words, word_length)
  else
    none

/-- Rust `Library::load_from_file`, with both files' contents already read:
loads the guess words, then the answer words, and panics (`none`) when the two
word lengths disagree. -/
def Library.load_from_file (guessesContents answersContents : String) : Option Library :=
  match load_words_from_file guessesContents with
  | none => none
  | some (guesses, guesses_word_length) =>
    match load_words_from_file answersContents with
    | none => none
    | some (answers, answers_word_length) =>
      if guesses_word_length ≠ answers_word_length then none
      else some { guesses := guesses, answers := answers, word_length := guesses_word_length }

/-- The short-circuiting scan performed by
`answer.iter().enumerate().any(|(j, &ac)| j != i && ac == g && guess[j] != ac)`
inside `evaluate_letter`; `j` is the index in the answer of the first element
of the remaining list. `none` models the panic of an out-of-bounds `guess[j]`,
which Rust only evaluates after `j != i && ac == g` held. -/
def presentScan (g : Char) (guess : List Char) (i : Nat) : Nat → List Char → Option Bool
  | _, [] => some false
  | j, ac :: rest =>
      if j ≠ i ∧ ac = g then
        match guess[j]? with
        | none => none
        | some gj => if gj ≠ ac then some true else presentScan g guess i (j + 1) rest
      else presentScan g guess i (j + 1) rest

/-- Rust `evaluate_letter`: fetches `guess[i]` and `answer[i]` (panicking as
`none` when out of bounds), returns `Correct` on equality, and otherwise
decides `Present` against `Absent` by the enumerate-any scan. -/
def evaluate_letter (guess answer : List Char) (i : Nat) : Option LetterState :=
  match guess[i]?, answer[i]? with
  | some g, some a =>
      if g = a then some LetterState.Correct
      else
        match presentScan g guess i 0 answer with
        | some true => some LetterState.Present
        | some false => some LetterState.Absent
        | none => none
  | _, _ => none

/-- The `(0..guess_chars.len()).map(|i| evaluate_letter(..)).collect()` loop of
`evaluate_guess`: evaluates the positions left to right and fails as a whole
(`none`) when any letter evaluation panics. -/
def collectStates (gc ac : List Char) : List Nat → Option (List LetterState)
  | [] => some []
  | i :: rest =>
      match evaluate_letter gc ac i, collectStates gc ac rest with
      | some s, some ss => some (s :: ss)
      | _, _ => none

/-- Rust `GuessResult::evaluate_guess`: panics (`none`) when the byte lengths
of guess and answer differ, and otherwise evaluates every character position of
the guess. -/
def GuessResult.evaluate_guess (guess answer : String) : Option GuessResult :=
  if rustLen guess ≠ rustLen answer then none
  else
    match collectStates guess.toList answer.toList (List.range guess.toList.length) with
    | some states => some { guess := guess, states := states }
    | none => none

/-- The character at position `i` of a word, used to state the claims
(positions are in bounds wherever this appears in a statement). -/
def charAt (l : List Char) (i : Nat) : Char := l.getD i 'A'

/-- The state recorded at position `i` of a guess result. -/
def stateAt (r : GuessResult) (i : Nat) : LetterState :=
  r.states.getD i LetterState.Absent

/-- The specification's `Present` condition at position `i`: some other answer
position `j` holds the guessed letter while the guess's own letter at `j` is
not a correct match there. -/
def presentAt (gc ac : List Char) (i : Nat) : Prop :=
  ∃ j, j < ac.length ∧ j ≠ i ∧ charAt ac j = charAt gc i ∧ charAt gc j ≠ charAt ac j

/-- Reindexing of the existence condition when one answer position has been
consumed by the scan without producing a hit. -/
theorem presentShift {c : Char} {rest gc : List Char} {g : Char} {i j0 : Nat}
    (h0 : ¬ (j0 ≠ i ∧ charAt (c :: rest) 0 = g ∧ charAt gc j0 ≠ charAt (c :: rest) 0)) :
    ((∃ k, k < rest.length ∧ (j0 + 1) + k ≠ i ∧ charAt rest k = g ∧
        charAt gc ((j0 + 1) + k) ≠ charAt rest k) ↔
     (∃ k, k < rest.length + 1 ∧ j0 + k ≠ i ∧ charAt (c :: rest) k = g ∧
        charAt gc (j0 + k) ≠ charAt (c :: rest) k)) := by
  constructor
  · rintro ⟨k, hk, hki, hcg, hne⟩
    refine ⟨k + 1, by omega, by omega, ?_, ?_⟩
    · simpa [charAt] using hcg
    · have harith : j0 + (k + 1) = (j0 + 1) + k := by omega
      rw [harith]
      simpa [charAt] using hne
  · rintro ⟨k, hk, hki, hcg, hne⟩
    match k with
    | 0 =>
      refine absurd ?_ h0
      exact ⟨by simpa using hki, hcg, by simpa using hne⟩
    | k + 1 =>
      refine ⟨k, by omega, by omega, ?_, ?_⟩
      · simpa [charAt] using hcg
      · have harith : (j0 + 1) + k = j0 + (k + 1) := by omega
        rw [harith]
        simpa [charAt] using hne

/-- The enumerate-any scan of `evaluate_letter` never panics when every scanned
guess index is in bounds, and it returns `true` exactly when some scanned
position witnesses the `Present` condition. -/
theorem presentScan_spec (g : Char) (gc : List Char) (i : Nat) :
    ∀ (l : List Char) (j0 : Nat), (∀ k, k < l.length → j0 + k < gc.length) →
    ∃ b, presentScan g gc i j0 l = some b ∧
      (b = true ↔ ∃ k, k < l.length ∧ j0 + k ≠ i ∧ charAt l k = g ∧
        charAt gc (j0 + k) ≠ charAt l k) := by
  intro l
  induction l with
  | nil =>
    intro j0 _
    exact ⟨false, rfl, by simp⟩
  | cons c rest ih =>
    intro j0 hb
    have hj0 : j0 < gc.length := by simpa using hb 0 (by simp)
    have hrest : ∀ k, k < rest.length → (j0 + 1) + k < gc.length := by
      intro k hk
      have := hb (k + 1) (by simpa using Nat.succ_lt_succ hk)
      omega
    obtain ⟨b, hbscan, hiff⟩ := ih (j0 + 1) hrest
    have hg : gc[j0]? = some gc[j0] := List.getElem?_eq_getElem hj0
    have hcj0 : charAt gc j0 = gc[j0] := List.getD_eq_getElem gc 'A' hj0
    have hc0 : charAt (c :: rest) 0 = c := by simp [charAt]
    have hstep0 : presentScan g gc i j0 (c :: rest) =
        if j0 ≠ i ∧ c = g then
          match gc[j0]? with
          | none => none
          | some gj => if gj ≠ c then some true else presentScan g gc i (j0 + 1) rest
        else presentScan g gc i (j0 + 1) rest := rfl
    by_cases hc : j0 ≠ i ∧ c = g
    · have hstep : presentScan g gc i j0 (c :: rest) =
          if gc[j0] ≠ c then some true else presentScan g gc i (j0 + 1) rest := by
        rw [hstep0, if_pos hc, hg]
      by_cases hgj : gc[j0] ≠ c
      · refine ⟨true, by rw [hstep, if_pos hgj], ?_⟩
        constructor
        · intro _
          refine ⟨0, by simp, by simpa using hc.1, by rw [hc0]; exact hc.2, ?_⟩
          have : charAt gc (j0 + 0) = gc[j0] := by simpa using hcj0
          rw [this, hc0]
          exact hgj
        · intro _
          rfl
      · push_neg at hgj
        refine ⟨b, by rw [hstep, if_neg (not_not_intro hgj), hbscan], ?_⟩
        rw [hiff]
        refine presentShift ?_
        rintro ⟨-, -, hne⟩
        exact hne (by rw [hcj0, hc0, hgj])
    · have hstep : presentScan g gc i j0 (c :: rest) = presentScan g gc i (j0 + 1) rest := by
        rw [hstep0, if_neg hc]
      refine ⟨b, by rw [hstep, hbscan], ?_⟩
      rw [hiff]
      refine presentShift ?_
      rintro ⟨h1, h2, -⟩
      exact hc ⟨h1, by rwa [hc0] at h2⟩

/-- Case analysis of `evaluate_letter` at an in-bounds position of equal-length
words: it never panics, returns `Correct` exactly on character equality, and
otherwise decides `Present` against `Absent` by the `presentAt` condition. -/
theorem evaluate_letter_split (gc ac : List Char) (i : Nat)
    (hlen : gc.length = ac.length) (hi : i < gc.length) :
    (charAt gc i = charAt ac i ∧ evaluate_letter gc ac i = some LetterState.Correct) ∨
    (charAt gc i ≠ charAt ac i ∧ presentAt gc ac i ∧
      evaluate_letter gc ac i = some LetterState.Present) ∨
    (charAt gc i ≠ charAt ac i ∧ ¬ presentAt gc ac i ∧
      evaluate_letter gc ac i = some LetterState.Absent) := by
  have hia : i < ac.length := hlen ▸ hi
  have hg : gc[i]? = some gc[i] := List.getElem?_eq_getElem hi
  have ha : ac[i]? = some ac[i] := List.getElem?_eq_getElem hia
  have hcg : charAt gc i = gc[i] := List.getD_eq_getElem gc 'A' hi
  have hca : charAt ac i = ac[i] := List.getD_eq_getElem ac 'A' hia
  by_cases heq : gc[i] = ac[i]
  · left
    refine ⟨by rw [hcg, hca, heq], ?_⟩
    simp [evaluate_letter, hg, ha, heq]
  · obtain ⟨b, hscan, hiff⟩ := presentScan_spec gc[i] gc i ac 0 (fun k hk => by omega)
    have hiff' : b = true ↔ presentAt gc ac i := by
      rw [hiff]
      unfold presentAt
      simp [hcg]
    have hne : charAt gc i ≠ charAt ac i := by rw [hcg, hca]; exact heq
    match b, hscan, hiff' with
    | true, hscan, hiff' =>
      right; left
      refine ⟨hne, hiff'.mp rfl, ?_⟩
      simp [evaluate_letter, hg, ha, heq, hscan]
    | false, hscan, hiff' =>
      right; right
      refine ⟨hne, fun hp => by simpa using hiff'.mpr hp, ?_⟩
      simp [evaluate_letter, hg, ha, heq, hscan]

/-- Inversion of a successful `collectStates` run: one state per requested
position, each produced by `evaluate_letter` at that position. -/
theorem collectStates_some (gc ac : List Char) :
    ∀ (l : List Nat) (ss : List LetterState), collectStates gc ac l = some ss →
      ss.length = l.length ∧
      ∀ k, k < l.length →
        evaluate_letter gc ac (l.getD k 0) = some (ss.getD k LetterState.Absent) := by
  intro l
  induction l with
  | nil =>
    intro ss h
    have hss : ss = [] := by simpa [collectStates] using h.symm
    subst hss
    exact ⟨rfl, fun k hk => absurd hk (by simp)⟩
  | cons i rest ih =>
    intro ss h
    match he : evaluate_letter gc ac i, hc : collectStates gc ac rest with
    | some s, some ss' =>
      have hss : ss = s :: ss' := by
        have := h
        simp only [collectStates, he, hc, Option.some.injEq] at this
        exact this.symm
      subst hss
      obtain ⟨hlen, hpt⟩ := ih ss' hc
      refine ⟨by simpa using hlen, ?_⟩
      intro k hk
      match k with
      | 0 => simpa using he
      | k + 1 =>
        have := hpt k (by simpa using Nat.lt_of_succ_lt_succ hk)
        simpa using this
    | some _, none =>
      simp only [collectStates, he, hc] at h
      exact Option.noConfusion h
    | none, _ =>
      simp only [collectStates, he] at h
      exact Option.noConfusion h

/-- `collectStates` succeeds as soon as every requested letter evaluation
succeeds. -/
theorem collectStates_isSome (gc ac : List Char) :
    ∀ l : List Nat, (∀ i ∈ l, (evaluate_letter gc ac i).isSome) →
      (collectStates gc ac l).isSome := by
  intro l
  induction l with
  | nil => intro _; simp [collectStates]
  | cons i rest ih =>
    intro h
    have hi := h i (by simp)
    have hrest := ih (fun j hj => h j (by simp [hj]))
    match he : evaluate_letter gc ac i, hc : collectStates gc ac rest with
    | some s, some ss => simp [collectStates, he, hc]
    | some _, none => rw [hc] at hrest; simp at hrest
    | none, _ => rw [he] at hi; simp at hi

/-- A letter evaluated against the word itself is `Correct`. -/
theorem evaluate_letter_self (gc : List Char) (i : Nat) (hi : i < gc.length) :
    evaluate_letter gc gc i = some LetterState.Correct := by
  have hg : gc[i]? = some gc[i] := List.getElem?_eq_getElem hi
  simp [evaluate_letter, hg]

/-- Evaluating a word against itself yields `Correct` at every requested
position. -/
theorem collectStates_self (gc : List Char) :
    ∀ l : List Nat, (∀ i ∈ l, i < gc.length) →
      collectStates gc gc l = some (l.map fun _ => LetterState.Correct) := by
  intro l
  induction l with
  | nil => intro _; simp [collectStates]
  | cons i rest ih =>
    intro h
    have hi := evaluate_letter_self gc i (h i (by simp))
    have hrest := ih (fun j hj => h j (by simp [hj]))
    simp [collectStates, hi, hrest]

/-- Inversion of a successful `evaluate_guess`: the byte lengths agreed, the
guess is recorded verbatim, and the states come from `collectStates` over all
character positions of the guess. -/
theorem evaluate_guess_some (guess answer : String) (r : GuessResult)
    (h : GuessResult.evaluate_guess guess answer = some r) :
    rustLen guess = rustLen answer ∧ r.guess = guess ∧
      collectStates guess.toList answer.toList (List.range guess.toList.length) =
        some r.states := by
  by_cases hb : rustLen guess ≠ rustLen answer
  · simp [GuessResult.evaluate_guess, hb] at h
  · push_neg at hb
    refine ⟨hb, ?_⟩
    match hcs : collectStates guess.toList answer.toList (List.range guess.toList.length) with
    | some states =>
      have hr : r = { guess := guess, states := states } := by
        have := h
        simp only [GuessResult.evaluate_guess, if_neg (not_not_intro hb), hcs,
          Option.some.injEq] at this
        exact this.symm
      subst hr
      exact ⟨rfl, rfl⟩
    | none =>
      simp only [GuessResult.evaluate_guess, if_neg (not_not_intro hb), hcs] at h
      exact Option.noConfusion h

/-- The state at an in-bounds position of a successful `evaluate_guess` is
exactly what `evaluate_letter` returns there. -/
theorem stateAt_eval (guess answer : String) (r : GuessResult)
    (h : GuessResult.evaluate_guess guess answer = some r)
    (i : Nat) (hi : i < guess.toList.length) :
    evaluate_letter guess.toList answer.toList i = some (stateAt r i) := by
  obtain ⟨-, -, hcs⟩ := evaluate_guess_some guess answer r h
  obtain ⟨-, hpt⟩ := collectStates_some guess.toList answer.toList _ _ hcs
  have := hpt i (by simpa using hi)
  have hrange : (List.range guess.toList.length).getD i 0 = i := by
    rw [List.getD_eq_getElem _ _ (by simpa using hi)]
    simp
  rw [hrange] at this
  exact this

/-- The state list of a successful `evaluate_guess` has one entry per character
of the guess. -/
theorem evaluate_guess_states_length (guess answer : String) (r : GuessResult)
    (h : GuessResult.evaluate_guess guess answer = some r) :
    r.states.length = guess.toList.length := by
  obtain ⟨-, -, hcs⟩ := evaluate_guess_some guess answer r h
  obtain ⟨hlen, -⟩ := collectStates_some guess.toList answer.toList _ _ hcs
  simpa using hlen

/-- Inversion of a successful `load_words_from_file`: the words are the lines
of the contents and the reported length is the byte length of the first word
(0 when there is none). -/
theorem load_words_some (contents : String) (words : List String) (wl : Nat)
    (h : load_words_from_file contents = some (words, wl)) :
    words = rustLines contents ∧
      wl = ((rustLines contents).head?.map rustLen).getD 0 := by
  by_cases hall : (rustLines contents).all
      (fun w => rustLen w == ((rustLines contents).head?.map rustLen).getD 0) = true
  · simp only [load_words_from_file, if_pos hall, Option.some.injEq, Prod.mk.injEq] at h
    exact ⟨h.1.symm, h.2.symm⟩
  · simp only [load_words_from_file, if_neg hall] at h
    exact Option.noConfusion h

/-- Claim C1: for every guess and answer of equal character count and every
position `i` with `guess[i] ≠ answer[i]`, the state at `i` is `Present` if and
only if there is a position `j ≠ i` with `answer[j] = guess[i]` and
`guess[j] ≠ answer[j]`; otherwise the state at `i` is `Absent`. -/
theorem claim_c1_present_characterization (guess answer : String) (r : GuessResult)
    (hlen : guess.toList.length = answer.toList.length)
    (hr : GuessResult.evaluate_guess guess answer = some r)
    (i : Nat) (hi : i < guess.toList.length)
    (hne : charAt guess.toList i ≠ charAt answer.toList i) :
    (stateAt r i = LetterState.Present ↔ presentAt guess.toList answer.toList i) ∧
    (stateAt r i = LetterState.Absent ↔ ¬ presentAt guess.toList answer.toList i) := by
  have hev := stateAt_eval guess answer r hr i hi
  rcases evaluate_letter_split guess.toList answer.toList i hlen hi with
    ⟨heq, -⟩ | ⟨-, hp, hc⟩ | ⟨-, hp, hc⟩
  · exact absurd heq hne
  · rw [hc] at hev
    have hst : stateAt r i = LetterState.Present := (Option.some.inj hev).symm
    refine ⟨⟨fun _ => hp, fun _ => hst⟩, ⟨fun habs => ?_, fun hnp => absurd hp hnp⟩⟩
    rw [hst] at habs
    exact absurd habs (by decide)
  · rw [hc] at hev
    have hst : stateAt r i = LetterState.Absent := (Option.some.inj hev).symm
    refine ⟨⟨fun hpres => ?_, fun hp' => absurd hp' hp⟩, ⟨fun _ => hp, fun _ => hst⟩⟩
    rw [hst] at hpres
    exact absurd hpres (by decide)

/-- Witness for claim C1 at `guess = "RARE"`, `answer = "SOAP"`, `i = 1`. -/
theorem claim_c1_witness :
    (stateAt { guess := "RARE",
               states := [LetterState.Absent, LetterState.Present,
                          LetterState.Absent, LetterState.Absent] } 1 =
        LetterState.Present ↔ presentAt "RARE".toList "SOAP".toList 1) ∧
    (stateAt { guess := "RARE",
               states := [LetterState.Absent, LetterState.Present,
                          LetterState.Absent, LetterState.Absent] } 1 =
        LetterState.Absent ↔ ¬ presentAt "RARE".toList "SOAP".toList 1) :=
  claim_c1_present_characterization "RARE" "SOAP"
    { guess := "RARE",
      states := [LetterState.Absent, LetterState.Present,
                 LetterState.Absent, LetterState.Absent] }
    (by decide) (by decide) 1 (by decide) (by decide)

/-- Claim C2: for every guess and answer of equal character count and every
position `i`, the state at `i` of `evaluate_guess guess answer` is `Correct`
if and only if `guess[i] = answer[i]`. -/
theorem claim_c2_correct_iff (guess answer : String) (r : GuessResult)
    (hlen : guess.toList.length = answer.toList.length)
    (hr : GuessResult.evaluate_guess guess answer = some r)
    (i : Nat) (hi : i < guess.toList.length) :
    stateAt r i = LetterState.Correct ↔
      charAt guess.toList i = charAt answer.toList i := by
  have hev := stateAt_eval guess answer r hr i hi
  rcases evaluate_letter_split guess.toList answer.toList i hlen hi with
    ⟨heq, hc⟩ | ⟨hne, -, hc⟩ | ⟨hne, -, hc⟩ <;> rw [hc] at hev
  · exact ⟨fun _ => heq, fun _ => (Option.some.inj hev).symm⟩
  · have hst : stateAt r i = LetterState.Present := (Option.some.inj hev).symm
    refine ⟨fun hco => ?_, fun heq => absurd heq hne⟩
    rw [hst] at hco
    exact absurd hco (by decide)
  · have hst : stateAt r i = LetterState.Absent := (Option.some.inj hev).symm
    refine ⟨fun hco => ?_, fun heq => absurd heq hne⟩
    rw [hst] at hco
    exact absurd hco (by decide)

/-- Witness for claim C2 at `guess = "AABBC"`, `answer = "BBAAC"`, `i = 4`. -/
theorem claim_c2_witness :
    stateAt { guess := "AABBC",
              states := [LetterState.Present, LetterState.Present, LetterState.Present,
                         LetterState.Present, LetterState.Correct] } 4 =
        LetterState.Correct ↔
      charAt "AABBC".toList 4 = charAt "BBAAC".toList 4 :=
  claim_c2_correct_iff "AABBC" "BBAAC"
    { guess := "AABBC",
      states := [LetterState.Present, LetterState.Present, LetterState.Present,
                 LetterState.Present, LetterState.Correct] }
    (by decide) (by decide) 4 (by decide)

/-- Claim C3: for every guess and answer satisfying the equal-length
precondition, the state sequence of the `GuessResult` returned by
`evaluate_guess` has length equal to the guess's character count. -/
theorem claim_c3_length_preservation (guess answer : String) (r : GuessResult)
    (_hlen : guess.toList.length = answer.toList.length)
    (hr : GuessResult.evaluate_guess guess answer = some r) :
    r.states.length = guess.toList.length :=
  evaluate_guess_states_length guess answer r hr

/-- Witness for claim C3 at `guess = "AABBC"`, `answer = "BBAAC"`. -/
theorem claim_c3_witness :
    ({ guess := "AABBC",
       states := [LetterState.Present, LetterState.Present, LetterState.Present,
                  LetterState.Present, LetterState.Correct] } : GuessResult).states.length =
      "AABBC".toList.length :=
  claim_c3_length_preservation "AABBC" "BBAAC"
    { guess := "AABBC",
      states := [LetterState.Present, LetterState.Present, LetterState.Present,
                 LetterState.Present, LetterState.Correct] }
    (by decide) (by decide)

/-- Counterexample to claim C4: the character counts of `"éa"` (2) and `"abc"`
(3) differ, yet `evaluate_guess` returns a `GuessResult` instead of failing:
the code compares UTF-8 byte lengths (both 3), not character counts. -/
theorem claim_c4_counterexample :
    "éa".toList.length ≠ "abc".toList.length ∧
    GuessResult.evaluate_guess "éa" "abc" =
      some { guess := "éa", states := [LetterState.Absent, LetterState.Present] } := by
  constructor
  · decide
  · decide

/-- Claim C4 as amended: for every guess and answer whose UTF-8 byte lengths
(Rust `str::len`) differ, `evaluate_guess` fails fatally rather than returning
a `GuessResult`. -/
theorem claim_c4_amended_bytelen (guess answer : String)
    (h : rustLen guess ≠ rustLen answer) :
    GuessResult.evaluate_guess guess answer = none := by
  simp [GuessResult.evaluate_guess, h]

/-- Witness for the amended claim C4 at `guess = "a"`, `answer = "ab"`. -/
theorem claim_c4_witness : GuessResult.evaluate_guess "a" "ab" = none :=
  claim_c4_amended_bytelen "a" "ab" (by decide)

/-- Claim C5: the worked duplicate-letter example
`evaluate_guess "AABBC" "BBAAC"` yields
`[Present, Present, Present, Present, Correct]`. -/
theorem claim_c5_worked_example :
    GuessResult.evaluate_guess "AABBC" "BBAAC" =
      some { guess := "AABBC",
             states := [LetterState.Present, LetterState.Present, LetterState.Present,
                        LetterState.Present, LetterState.Correct] } := by
  decide

/-- Claim C6: for every word `w`, `evaluate_guess w w` yields a state sequence
that is `Correct` at every position (it is `Correct` repeated once per
character of `w`). -/
theorem claim_c6_self_match (w : String) :
    GuessResult.evaluate_guess w w =
      some { guess := w,
             states := List.replicate w.toList.length LetterState.Correct } := by
  have hcs : collectStates w.toList w.toList (List.range w.toList.length) =
      some (List.replicate w.toList.length LetterState.Correct) := by
    rw [collectStates_self w.toList (List.range w.toList.length)
      (fun i hi => List.mem_range.mp hi)]
    simp [List.map_const']
  simp only [GuessResult.evaluate_guess, if_neg (not_not_intro rfl), hcs]

/-- Counterexample to claim C7: for the one-word source `"é"` the loader
reports `word_length = 2` (the UTF-8 byte length of `"é"`), which is not the
character count (1) of the source's first word. -/
theorem claim_c7_counterexample :
    load_words_from_file "é" = some (["é"], 2) ∧ "é".toList.length ≠ 2 := by
  constructor
  · decide
  · decide

/-- Claim C7 as amended: for every word-list source, the loader computes that
source's `word_length` as the UTF-8 byte length (Rust `str::len`) of the
source's first word, and as 0 if the source contains no words. -/
theorem claim_c7_amended_word_length (contents : String) (words : List String) (wl : Nat)
    (h : load_words_from_file contents = some (words, wl)) :
    (words = [] → wl = 0) ∧ ∀ w ws, words = w :: ws → wl = rustLen w := by
  obtain ⟨hw, hwl⟩ := load_words_some contents words wl h
  constructor
  · intro hnil
    rw [hwl, ← hw, hnil]
    simp
  · intro w ws hcons
    rw [hwl, ← hw, hcons]
    simp

/-- Witness for the amended claim C7 at the two-word source `"ab\ncd"`. -/
theorem claim_c7_witness : (2 : Nat) = rustLen "ab" :=
  (claim_c7_amended_word_length "ab\ncd" ["ab", "cd"] 2 (by decide)).2 "ab" ["cd"] rfl

/-- Counterexample to claim C8: in the source `"ab\né"` the word `"é"` has
character count 1, different from the source's `word_length` 2, yet loading
succeeds: the code compares UTF-8 byte lengths, and `rustLen "é" = 2`. -/
theorem claim_c8_counterexample :
    "é".toList.length ≠ 2 ∧
    load_words_from_file "ab\né" = some (["ab", "é"], 2) := by
  constructor
  · decide
  · decide

/-- Claim C8 as amended: a source containing some word whose UTF-8 byte length
(Rust `str::len`) differs from the byte length of the source's first word
fails to load fatally, and no word list is returned. -/
theorem claim_c8_amended_byte_ragged (contents : String) (w0 w : String) (ws : List String)
    (hl : rustLines contents = w0 :: ws) (hw : w ∈ w0 :: ws)
    (hne : rustLen w ≠ rustLen w0) :
    load_words_from_file contents = none := by
  simp only [load_words_from_file, hl, List.head?_cons, Option.map_some, Option.getD_some]
  rw [if_neg]
  intro hall
  rw [List.all_eq_true] at hall
  have hthis := hall w hw
  rw [beq_iff_eq] at hthis
  exact hne hthis

/-- Witness for the amended claim C8 at the byte-ragged source `"ab\nc"`. -/
theorem claim_c8_witness : load_words_from_file "ab\nc" = none :=
  claim_c8_amended_byte_ragged "ab\nc" "ab" "c" ["c"] (by decide) (by decide) (by decide)

/-- Claim C9: for two internally-uniform sources, loading fails fatally when
their `word_length` values differ, and otherwise returns a `Library` holding
both word collections and the single shared `word_length`. -/
theorem claim_c9_cross_source_check (c1 c2 : String) (g a : List String) (lg la : Nat)
    (h1 : load_words_from_file c1 = some (g, lg))
    (h2 : load_words_from_file c2 = some (a, la)) :
    (lg ≠ la → Library.load_from_file c1 c2 = none) ∧
    (lg = la → Library.load_from_file c1 c2 =
      some { guesses := g, answers := a, word_length := lg }) := by
  constructor
  · intro hne
    simp only [Library.load_from_file, h1, h2, if_pos hne]
  · intro heq
    simp only [Library.load_from_file, h1, h2, if_neg (not_not_intro heq)]

/-- Witness for claim C9: sources of widths 2 and 3 are rejected, while two
width-2 sources produce the library. -/
theorem claim_c9_witness :
    Library.load_from_file "ab" "xyz" = none ∧
    Library.load_from_file "ab" "cd" =
      some { guesses := ["ab"], answers := ["cd"], word_length := 2 } :=
  ⟨(claim_c9_cross_source_check "ab" "xyz" ["ab"] ["xyz"] 2 3
      (by decide) (by decide)).1 (by decide),
   (claim_c9_cross_source_check "ab" "cd" ["ab"] ["cd"] 2 2
      (by decide) (by decide)).2 rfl⟩

/-- Claim C10: under the equal-character-count precondition every index access
performed during evaluation is in bounds — every per-letter evaluation
succeeds, and the only way `evaluate_guess` can abort is its explicit byte
length check, never an out-of-range index. -/
theorem claim_c10_no_out_of_bounds (guess answer : String)
    (hlen : guess.toList.length = answer.toList.length) :
    (∀ i, i < guess.toList.length →
      (evaluate_letter guess.toList answer.toList i).isSome = true) ∧
    (GuessResult.evaluate_guess guess answer = none →
      rustLen guess ≠ rustLen answer) := by
  have hsome : ∀ i, i < guess.toList.length →
      (evaluate_letter guess.toList answer.toList i).isSome = true := by
    intro i hi
    rcases evaluate_letter_split guess.toList answer.toList i hlen hi with
      ⟨-, hc⟩ | ⟨-, -, hc⟩ | ⟨-, -, hc⟩ <;> rw [hc] <;> rfl
  refine ⟨hsome, ?_⟩
  intro hnone hbe
  have hcs := collectStates_isSome guess.toList answer.toList
    (List.range guess.toList.length)
    (fun i hi => hsome i (List.mem_range.mp hi))
  match hcs2 : collectStates guess.toList answer.toList (List.range guess.toList.length) with
  | some states =>
    have hres : GuessResult.evaluate_guess guess answer =
        some { guess := guess, states := states } := by
      simp only [GuessResult.evaluate_guess, if_neg (not_not_intro hbe), hcs2]
    rw [hres] at hnone
    exact Option.noConfusion hnone
  | none =>
    rw [hcs2] at hcs
    simp at hcs

/-- Witness for claim C10 at `guess = "AB"`, `answer = "CD"`, position 0. -/
theorem claim_c10_witness :
    (evaluate_letter "AB".toList "CD".toList 0).isSome = true :=
  (claim_c10_no_out_of_bounds "AB" "CD" (by decide)).1 0 (by decide)
